import Mathlib

/-!
Verification of the consistent-hashing ring (`src/bisect.rs`, `src/hashing_ring.rs`).

Shallow embedding conventions:
* Rust `u32` / `usize` values are modelled as `Nat`; every arithmetic operation
  performed by the code on the values that matter here stays far below `2^32`
  except where noted, and the byte-folding in `hash_val` is expressed with
  explicit shifts/ors exactly as in the source.
* A Rust panic (out-of-bounds index, division by zero, missing map key) is
  modelled as `none` in an `Option`-returning function; an ordinary `Option`
  result of the Rust code is a nested `Option`.
* `HashMap` is modelled as an association list where `insert` conses the new
  binding at the front and `List.lookup` finds the most recent binding, which
  matches the observable operations the code performs on its maps
  (insert-with-overwrite, key lookup, emptiness test).
* The external `md5` crate (`hash_digest`) is modelled as an explicit
  parameter `digest : String → List Nat` producing the 16-byte digest.
-/

namespace HashingRing

/-- Embedding of `bisect::bisect_right`'s `while lo < hi` loop with
`mid = (lo + hi) / 2` written inline.  `none` models the out-of-bounds panic
of `sorted_key[mid]` (reachable only when the caller passes bounds beyond
the vector length). -/
def bisect_loop {α : Type} [LinearOrder α] (sorted_key : List α) (search_key : α)
    (lo hi : Nat) : Option Nat :=
  if _h : lo < hi then
    if hm : (lo + hi) / 2 < sorted_key.length then
      if search_key < sorted_key.get ⟨(lo + hi) / 2, hm⟩ then
        bisect_loop sorted_key search_key lo ((lo + hi) / 2)
      else
        bisect_loop sorted_key search_key ((lo + hi) / 2 + 1) hi
    else none
  else
    some lo
termination_by hi - lo
decreasing_by
  · omega
  · omega

/-- Embedding of `bisect::bisect_right`: the optional `lo`/`hi` arguments
default to `0` and the vector length, then the binary-search loop runs. -/
def bisect_right {α : Type} [LinearOrder α] (sorted_key : List α) (search_key : α)
    (lo hi : Option Nat) : Option Nat :=
  let hi' := match hi with
    | some num => num
    | none => sorted_key.length
  let lo' := match lo with
    | some num => num
    | none => 0
  bisect_loop sorted_key search_key lo' hi'

/-! ### Hashing utilities (`hashing_ring.rs`) -/

/-- Embedding of `hash_val`: folds four selected bytes of the digest into a
32-bit value `b[sel 3]<<24 | b[sel 2]<<16 | b[sel 1]<<8 | b[sel 0]`.
`none` models the out-of-bounds panic `b_key[entry_fn(i)]` that Rust would
raise if a selected index exceeded the digest length. -/
def hash_val (b_key : List Nat) (entry_fn : Nat → Nat) : Option Nat :=
  match b_key.get? (entry_fn 3), b_key.get? (entry_fn 2),
        b_key.get? (entry_fn 1), b_key.get? (entry_fn 0) with
  | some b3, some b2, some b1, some b0 =>
      some ((b3 <<< 24) ||| (b2 <<< 16) ||| (b1 <<< 8) ||| b0)
  | _, _, _, _ => none

/-- Embedding of `gen_key`: digest the string and fold with the identity
selector `|x| x`.  The `digest` parameter models `hash_digest`
(the external `md5::compute`, which always yields 16 bytes). -/
def gen_key (digest : String → List Nat) (string_key : String) : Option Nat :=
  hash_val (digest string_key) (fun x => x)

/-! ### The ring structure (`struct ConsistentHashing`) -/

/-- Embedding of `struct ConsistentHashing<T>`.  The two `HashMap`s are
association lists (most recent binding first), `sorted_keys` is the
coordinate vector. -/
structure ConsistentHashing (T : Type) where
  hashing_ring : List (Nat × T)
  real_nodes : List (String × T)
  sorted_keys : List Nat
  interleave_count : Nat
  total_weight : Nat

/-- The inner `for i in 0..3` loop of `generate_hashing_ring`: for each
sub-offset `i`, fold the digest with the interleaved selector `|x| x + i*4`,
insert the resulting coordinate into the coordinate→node map, and push it
onto the coordinate vector.  `none` models a panic inside `hash_val`. -/
def insert_seed_keys {T : Type} (node_entity : T) (b_key : List Nat)
    (st : ConsistentHashing T) : Option (ConsistentHashing T) :=
  (List.range 3).foldlM
    (fun st2 i =>
      match hash_val b_key (fun x => x + i * 4) with
      | none => none
      | some key =>
          some { st2 with
                 hashing_ring := (key, node_entity) :: st2.hashing_ring,
                 sorted_keys := st2.sorted_keys ++ [key] })
    st

/-- Total weight accumulation of `generate_hashing_ring`:
`for i in 0..nodes_num { total_weight += real_nodes[i].get_weight(); }`. -/
def totalWeightOf {T : Type} (get_weight : T → Nat) (real_nodes : List T) : Nat :=
  real_nodes.foldl (fun acc nd => acc + get_weight nd) 0

/-- The body of `generate_hashing_ring`'s per-node loop: register the node in
the identity map, set `weight = 0` (the literal in the source), compute
`factor = interleave_count * nodes_num * weight / total_weight`, and run the
placement loops.  Rust `usize` division panics when `total_weight == 0`
(the numerator being `0` does not prevent the panic), modelled as `none`. -/
def process_node {T : Type} (digest : String → List Nat) (to_string : T → String)
    (nodes_num total_weight : Nat) (st : ConsistentHashing T) (node_entity : T) :
    Option (ConsistentHashing T) :=
  let st := { st with real_nodes := (to_string node_entity, node_entity) :: st.real_nodes }
  let weight := 0
  if total_weight = 0 then
    none
  else
    let factor := st.interleave_count * nodes_num * weight / total_weight
    (List.range factor).foldlM
      (fun st2 j =>
        let b_key := digest (to_string node_entity ++ "-" ++ toString j)
        insert_seed_keys node_entity b_key st2)
      st

/-- Embedding of `generate_hashing_ring`: compute the total weight, run the
per-node loop, then sort the coordinate vector ascending
(`self.sorted_keys.sort()`; `List.insertionSort` produces the same sorted
permutation, which over `Nat` is unique). -/
def generate_hashing_ring {T : Type} (digest : String → List Nat)
    (to_string : T → String) (get_weight : T → Nat)
    (self : ConsistentHashing T) (real_nodes : List T) :
    Option (ConsistentHashing T) :=
  let nodes_num := real_nodes.length
  let total_weight := totalWeightOf get_weight real_nodes
  let self := { self with total_weight := total_weight }
  match real_nodes.foldlM (process_node digest to_string nodes_num total_weight) self with
  | none => none
  | some st => some { st with sorted_keys := st.sorted_keys.insertionSort (· ≤ ·) }

/-- Embedding of `ConsistentHashing::new`: the interleave count defaults to
40 when unset, the ring starts empty, and `generate_hashing_ring` populates
it.  `none` models a construction-time panic. -/
def ConsistentHashing.new {T : Type} (digest : String → List Nat)
    (to_string : T → String) (get_weight : T → Nat)
    (real_nodes : List T) (interleave_count_setting : Option Nat) :
    Option (ConsistentHashing T) :=
  let interleave_count := match interleave_count_setting with
    | some count => count
    | none => 40
  generate_hashing_ring digest to_string get_weight
    { hashing_ring := [], real_nodes := [], sorted_keys := [],
      interleave_count := interleave_count, total_weight := 0 }
    real_nodes

/-! ### Lookup (`get_node_pos`, `get_node`)

The source declares both functions with return type `Option<T>` yet returns
bare indices (`return 0; return pos;`) from `get_node_pos`; its doc comments
state the intended contract (the key's ring position, `None` on an empty
ring).  The embedding follows that documented optional-index contract: the
outer `Option` models a panic, the inner one is the function's own `None`. -/

/-- Embedding of `get_node_pos`: `None` on an empty coordinate→node map,
otherwise `bisect_right` over the sorted coordinates with wraparound to
index 0 when the key hashes past the last coordinate. -/
def get_node_pos {T : Type} (digest : String → List Nat)
    (r : ConsistentHashing T) (string_key : String) : Option (Option Nat) :=
  if r.hashing_ring.length ≤ 0 then
    some none
  else
    match gen_key digest string_key with
    | none => none
    | some key =>
        match bisect_right r.sorted_keys key none none with
        | none => none
        | some pos =>
            if pos = r.sorted_keys.length then some (some 0) else some (some pos)

/-- Embedding of `get_node`: resolve the position, then return the node at
`hashing_ring[sorted_keys[pos]]`.  The outer `Option` models the panics of
the vector index and of the map index; the inner one is the lookup result. -/
def get_node {T : Type} (digest : String → List Nat)
    (r : ConsistentHashing T) (string_key : String) : Option (Option T) :=
  match get_node_pos digest r string_key with
  | none => none
  | some none => some none
  | some (some pos) =>
      match r.sorted_keys.get? pos with
      | none => none
      | some coord =>
          match List.lookup coord r.hashing_ring with
          | none => none
          | some node => some (some node)

/-! ### Node descriptor types -/

/-- Embedding of `struct NodeInfoWithWeigth` (source spelling kept). -/
structure NodeInfoWithWeigth where
  node_name : String
  weight : Nat
deriving DecidableEq

/-- `impl ToString for NodeInfoWithWeigth`. -/
def NodeInfoWithWeigth.to_string (n : NodeInfoWithWeigth) : String := n.node_name

/-- `impl WithWeightInfo for NodeInfoWithWeigth`. -/
def NodeInfoWithWeigth.get_weight (n : NodeInfoWithWeigth) : Nat := n.weight

/-- Embedding of `struct NodeInfo`. -/
structure NodeInfo where
  node_name : String
deriving DecidableEq

/-- `impl ToString for NodeInfo`. -/
def NodeInfo.to_string (n : NodeInfo) : String := n.node_name

/-- `impl WithWeightInfo for NodeInfo`: the weight is the constant 1. -/
def NodeInfo.get_weight (_ : NodeInfo) : Nat := 1

/-- A fixed stand-in digest with the shape of `md5::compute`'s output
(16 bytes), used to instantiate witnesses. -/
def zeroDigest : String → List Nat := fun _ => List.replicate 16 0

/-! ### Helper lemmas about the binary-search loop -/

/-- The loop always terminates with a result inside `[lo, hi]` and performs
no out-of-bounds access, whenever the initial bounds satisfy
`lo ≤ hi ≤ length`.  No sortedness is needed. -/
lemma bisect_loop_total {α : Type} [LinearOrder α] (a : List α) (x : α) :
    ∀ (n lo hi : Nat), hi - lo ≤ n → lo ≤ hi → hi ≤ a.length →
      ∃ i, bisect_loop a x lo hi = some i ∧ lo ≤ i ∧ i ≤ hi := by
  intro n
  induction n with
  | zero =>
    intro lo hi h1 h2 _h3
    refine ⟨lo, ?_, le_refl lo, by omega⟩
    rw [bisect_loop, dif_neg (by omega)]
  | succ n ih =>
    intro lo hi h1 h2 h3
    by_cases hlt : lo < hi
    · have hmid : (lo + hi) / 2 < a.length := by omega
      rw [bisect_loop, dif_pos hlt, dif_pos hmid]
      by_cases hcmp : x < a.get ⟨(lo + hi) / 2, hmid⟩
      · rw [if_pos hcmp]
        obtain ⟨i, hi1, hi2, hi3⟩ := ih lo ((lo + hi) / 2) (by omega) (by omega) (by omega)
        exact ⟨i, hi1, hi2, by omega⟩
      · rw [if_neg hcmp]
        obtain ⟨i, hi1, hi2, hi3⟩ := ih ((lo + hi) / 2 + 1) hi (by omega) (by omega) h3
        exact ⟨i, hi1, by omega, hi3⟩
    · refine ⟨lo, ?_, le_refl lo, by omega⟩
      rw [bisect_loop, dif_neg hlt]

/-- Full functional specification of the loop on a sorted list: starting
from bounds whose outside already satisfies the bisect-right invariant, the
loop returns the unique splitting index. -/
lemma bisect_loop_spec {α : Type} [LinearOrder α] (a : List α) (x : α)
    (hsorted : a.Pairwise (· ≤ ·)) :
    ∀ (n lo hi : Nat), hi - lo ≤ n → lo ≤ hi → hi ≤ a.length →
      (∀ j (h : j < a.length), j < lo → a.get ⟨j, h⟩ ≤ x) →
      (∀ j (h : j < a.length), hi ≤ j → x < a.get ⟨j, h⟩) →
      ∃ i, bisect_loop a x lo hi = some i ∧ lo ≤ i ∧ i ≤ hi ∧
        (∀ j (h : j < a.length), j < i → a.get ⟨j, h⟩ ≤ x) ∧
        (∀ j (h : j < a.length), i ≤ j → x < a.get ⟨j, h⟩) := by
  intro n
  induction n with
  | zero =>
    intro lo hi h1 h2 _h3 hlow hhigh
    have hlohi : lo = hi := by omega
    refine ⟨lo, ?_, le_refl lo, by omega, hlow, ?_⟩
    · rw [bisect_loop, dif_neg (by omega)]
    · intro j h hj
      exact hhigh j h (by omega)
  | succ n ih =>
    intro lo hi h1 h2 h3 hlow hhigh
    by_cases hlt : lo < hi
    · have hmid : (lo + hi) / 2 < a.length := by omega
      rw [bisect_loop, dif_pos hlt, dif_pos hmid]
      by_cases hcmp : x < a.get ⟨(lo + hi) / 2, hmid⟩
      · rw [if_pos hcmp]
        have hhigh' : ∀ j (h : j < a.length), (lo + hi) / 2 ≤ j → x < a.get ⟨j, h⟩ := by
          intro j h hj
          rcases Nat.eq_or_lt_of_le hj with hj1 | hj1
          · have : a.get ⟨(lo + hi) / 2, hmid⟩ = a.get ⟨j, h⟩ := by
              congr 1
              exact Fin.ext hj1
            exact this ▸ hcmp
          · exact lt_of_lt_of_le hcmp
              (List.pairwise_iff_get.mp hsorted ⟨(lo + hi) / 2, hmid⟩ ⟨j, h⟩ hj1)
        obtain ⟨i, hi1, hi2, hi3, hi4, hi5⟩ :=
          ih lo ((lo + hi) / 2) (by omega) (by omega) (by omega) hlow hhigh'
        exact ⟨i, hi1, hi2, by omega, hi4, hi5⟩
      · rw [if_neg hcmp]
        have hmle : a.get ⟨(lo + hi) / 2, hmid⟩ ≤ x := le_of_not_lt hcmp
        have hlow' : ∀ j (h : j < a.length), j < (lo + hi) / 2 + 1 → a.get ⟨j, h⟩ ≤ x := by
          intro j h hj
          rcases Nat.lt_or_ge j ((lo + hi) / 2) with hj1 | hj1
          · exact le_trans
              (List.pairwise_iff_get.mp hsorted ⟨j, h⟩ ⟨(lo + hi) / 2, hmid⟩ hj1) hmle
          · have hje : j = (lo + hi) / 2 := by omega
            have : a.get ⟨j, h⟩ = a.get ⟨(lo + hi) / 2, hmid⟩ := by
              congr 1
              exact Fin.ext hje
            exact this ▸ hmle
        obtain ⟨i, hi1, hi2, hi3, hi4, hi5⟩ :=
          ih ((lo + hi) / 2 + 1) hi (by omega) (by omega) h3 hlow' hhigh
        exact ⟨i, hi1, by omega, hi3, hi4, hi5⟩
    · have hlohi : lo = hi := by omega
      refine ⟨lo, ?_, le_refl lo, by omega, hlow, ?_⟩
      · rw [bisect_loop, dif_neg hlt]
      · intro j h hj
        exact hhigh j h (by omega)

/-- `bisect_right` with default bounds always yields an index `≤ length`. -/
lemma bisect_right_total {α : Type} [LinearOrder α] (a : List α) (x : α) :
    ∃ i, bisect_right a x none none = some i ∧ i ≤ a.length := by
  obtain ⟨i, h1, _h2, h3⟩ :=
    bisect_loop_total a x a.length 0 a.length (by omega) (by omega) (le_refl _)
  exact ⟨i, h1, h3⟩

/-- `bisect_right` with default bounds on a sorted list returns the
splitting index of the bisect-right contract. -/
lemma bisect_right_sorted_spec {α : Type} [LinearOrder α] (a : List α) (x : α)
    (hsorted : a.Pairwise (· ≤ ·)) :
    ∃ i, bisect_right a x none none = some i ∧ i ≤ a.length ∧
      (∀ j (h : j < a.length), j < i → a.get ⟨j, h⟩ ≤ x) ∧
      (∀ j (h : j < a.length), i ≤ j → x < a.get ⟨j, h⟩) := by
  obtain ⟨i, h1, _h2, h3, h4, h5⟩ :=
    bisect_loop_spec a x hsorted a.length 0 a.length (by omega) (by omega) (le_refl _)
      (fun j h hj => absurd hj (by omega))
      (fun j h hj => absurd h (by omega))
  exact ⟨i, h1, h3, h4, h5⟩

/-! ### Helper lemmas about ring construction -/

/-- Because the source hardcodes `let weight = 0;`, each per-node loop body
either panics (zero total weight, division by zero) or only registers the
node: the placement count `factor` is `0` and the placement loops are
skipped. -/
lemma process_node_eq {T : Type} (digest : String → List Nat) (to_string : T → String)
    (nodes_num total_weight : Nat) (st : ConsistentHashing T) (node_entity : T) :
    process_node digest to_string nodes_num total_weight st node_entity =
      if total_weight = 0 then none
      else some { st with real_nodes := (to_string node_entity, node_entity) :: st.real_nodes } := by
  by_cases h : total_weight = 0
  · simp [process_node, h]
  · simp [process_node, h]

/-- Folding the per-node loop over any node list leaves the coordinate
structures untouched (it can only extend the identity map), provided no
iteration panics. -/
lemma foldlM_process_some {T : Type} (digest : String → List Nat)
    (to_string : T → String) (nodes_num total_weight : Nat) :
    ∀ (nodes : List T) (st : ConsistentHashing T), nodes = [] ∨ total_weight ≠ 0 →
      ∃ rn, nodes.foldlM (process_node digest to_string nodes_num total_weight) st =
        some { st with real_nodes := rn } := by
  intro nodes
  induction nodes with
  | nil =>
    intro st _h
    exact ⟨st.real_nodes, rfl⟩
  | cons head tail ih =>
    intro st h
    have htw : total_weight ≠ 0 := by
      rcases h with h | h
      · exact absurd h (List.cons_ne_nil head tail)
      · exact h
    rw [List.foldlM_cons, process_node_eq, if_neg htw]
    obtain ⟨rn, hrn⟩ :=
      ih { st with real_nodes := (to_string head, head) :: st.real_nodes } (Or.inr htw)
    refine ⟨rn, ?_⟩
    calc (some { st with real_nodes := (to_string head, head) :: st.real_nodes } >>= fun st2 =>
            tail.foldlM (process_node digest to_string nodes_num total_weight) st2)
        = tail.foldlM (process_node digest to_string nodes_num total_weight)
            { st with real_nodes := (to_string head, head) :: st.real_nodes } := rfl
      _ = some { st with real_nodes := rn } := hrn

/-- A nonempty node list with zero total weight makes the first iteration
panic (usize division by zero). -/
lemma foldlM_process_none {T : Type} (digest : String → List Nat)
    (to_string : T → String) (nodes_num : Nat) (head : T) (tail : List T)
    (st : ConsistentHashing T) :
    (head :: tail).foldlM (process_node digest to_string nodes_num 0) st = none := by
  rw [List.foldlM_cons, process_node_eq, if_pos rfl]
  rfl

/-- Shape of every successfully constructed ring: the coordinate vector and
the coordinate→node map are empty, the interleave count and total weight are
as configured. -/
lemma new_some {T : Type} (digest : String → List Nat) (to_string : T → String)
    (get_weight : T → Nat) (nodes : List T) (ic : Option Nat)
    (h : nodes = [] ∨ totalWeightOf get_weight nodes ≠ 0) :
    ∃ rn, ConsistentHashing.new digest to_string get_weight nodes ic =
      some { hashing_ring := [], real_nodes := rn, sorted_keys := [],
             interleave_count := (match ic with | some count => count | none => 40),
             total_weight := totalWeightOf get_weight nodes } := by
  obtain ⟨rn, hrn⟩ := foldlM_process_some digest to_string nodes.length
    (totalWeightOf get_weight nodes) nodes
    { hashing_ring := [], real_nodes := [], sorted_keys := [],
      interleave_count := (match ic with | some count => count | none => 40),
      total_weight := totalWeightOf get_weight nodes } h
  refine ⟨rn, ?_⟩
  simp only [ConsistentHashing.new, generate_hashing_ring]
  rw [hrn]
  rfl

/-- A nonempty node list whose total weight is zero makes construction
panic. -/
lemma new_none {T : Type} (digest : String → List Nat) (to_string : T → String)
    (get_weight : T → Nat) (head : T) (tail : List T) (ic : Option Nat)
    (h : totalWeightOf get_weight (head :: tail) = 0) :
    ConsistentHashing.new digest to_string get_weight (head :: tail) ic = none := by
  simp only [ConsistentHashing.new, generate_hashing_ring]
  rw [h, foldlM_process_none]

/-! ### Helper lemmas about lookup -/

/-- As long as the digest has at least the four bytes the identity selector
reads, `gen_key` succeeds. -/
lemma gen_key_some (digest : String → List Nat) (s : String)
    (h : 4 ≤ (digest s).length) : ∃ k, gen_key digest s = some k := by
  have h3 : (digest s).get? 3 = some ((digest s).get ⟨3, by omega⟩) :=
    List.get?_eq_get (by omega)
  have h2 : (digest s).get? 2 = some ((digest s).get ⟨2, by omega⟩) :=
    List.get?_eq_get (by omega)
  have h1 : (digest s).get? 1 = some ((digest s).get ⟨1, by omega⟩) :=
    List.get?_eq_get (by omega)
  have h0 : (digest s).get? 0 = some ((digest s).get ⟨0, by omega⟩) :=
    List.get?_eq_get (by omega)
  have hk : gen_key digest s =
      some (((digest s).get ⟨3, by omega⟩ <<< 24) ||| ((digest s).get ⟨2, by omega⟩ <<< 16) |||
            ((digest s).get ⟨1, by omega⟩ <<< 8) ||| (digest s).get ⟨0, by omega⟩) := by
    simp only [gen_key, hash_val, h3, h2, h1, h0]
  exact ⟨_, hk⟩

/-- Unfolding of `get_node_pos` on a nonempty map once the hash key and the
bisection result are known. -/
lemma get_node_pos_eq {T : Type} (digest : String → List Nat)
    (r : ConsistentHashing T) (s : String) (key pos : Nat)
    (hcond : ¬ r.hashing_ring.length ≤ 0)
    (hkey : gen_key digest s = some key)
    (hpos : bisect_right r.sorted_keys key none none = some pos) :
    get_node_pos digest r s =
      some (some (if pos = r.sorted_keys.length then 0 else pos)) := by
  simp only [get_node_pos, if_neg hcond, hkey, hpos]
  by_cases hp : pos = r.sorted_keys.length
  · rw [if_pos hp, if_pos hp]
  · rw [if_neg hp, if_neg hp]

/-! ## The claims -/

/-- C1: the claim says the per-node placement-seed count equals
`floor(interleaveCount * nodeCount * weight / totalWeight)` with the node's
actual configured weight.  The code instead hardcodes `let weight = 0;`:
for two nodes of weights 1 and 3 with interleave count 40 the claimed
formula yields 20 and 60 seeds, but the constructed ring holds zero
coordinates altogether. -/
theorem claim_C1_code_eval :
    (ConsistentHashing.new zeroDigest NodeInfoWithWeigth.to_string
        NodeInfoWithWeigth.get_weight [⟨"a", 1⟩, ⟨"b", 3⟩] (some 40)).map
      (fun r => r.sorted_keys.length) = some 0 ∧
    40 * 2 * 1 / (1 + 3) = 20 ∧ 40 * 2 * 3 / (1 + 3) = 60 :=
  ⟨rfl, rfl, rfl⟩

/-- C2: the weight term in the placement-count formula is the hardcoded
constant zero, so for every node list with positive total weight and every
interleave-count setting, construction succeeds and produces a ring with an
empty coordinate sequence and an empty coordinate→node mapping. -/
theorem claim_C2_empty_ring (T : Type) (digest : String → List Nat)
    (to_string : T → String) (get_weight : T → Nat)
    (nodes : List T) (ic : Option Nat)
    (h : 0 < totalWeightOf get_weight nodes) :
    ∃ r, ConsistentHashing.new digest to_string get_weight nodes ic = some r ∧
      r.sorted_keys = [] ∧ r.hashing_ring = [] := by
  obtain ⟨rn, hrn⟩ :=
    new_some digest to_string get_weight nodes ic (Or.inr (by omega))
  exact ⟨_, hrn, rfl, rfl⟩

/-- Witness for C2 at a concrete two-node list of weights 1 and 3. -/
theorem claim_C2_empty_ring_witness :
    ∃ r, ConsistentHashing.new zeroDigest NodeInfoWithWeigth.to_string
        NodeInfoWithWeigth.get_weight [⟨"a", 1⟩, ⟨"b", 3⟩] (some 40) = some r ∧
      r.sorted_keys = [] ∧ r.hashing_ring = [] :=
  claim_C2_empty_ring NodeInfoWithWeigth zeroDigest NodeInfoWithWeigth.to_string
    NodeInfoWithWeigth.get_weight [⟨"a", 1⟩, ⟨"b", 3⟩] (some 40) (by decide)

/-- C4: on a ring whose coordinate→node mapping is empty, lookup returns the
ordinary `None` result (inner `none`), not a panic (outer `none`). -/
theorem claim_C4_empty_ring_none (T : Type) (digest : String → List Nat)
    (r : ConsistentHashing T) (string_key : String)
    (h : r.hashing_ring = []) :
    get_node digest r string_key = some none := by
  simp [get_node, get_node_pos, h]

/-- Witness for C4 on a concrete empty ring. -/
theorem claim_C4_empty_ring_none_witness :
    get_node zeroDigest
      (⟨[], [], [], 40, 0⟩ : ConsistentHashing NodeInfo) "any key" = some none :=
  claim_C4_empty_ring_none NodeInfo zeroDigest ⟨[], [], [], 40, 0⟩ "any key" rfl

/-- C6: every ring actually produced by construction has a sorted (non-
decreasing) coordinate sequence, and every coordinate in the sequence has an
entry in the coordinate→node mapping.  (In the embedding a ring is an
immutable value, so both facts are preserved thereafter.) -/
theorem claim_C6_invariants (T : Type) (digest : String → List Nat)
    (to_string : T → String) (get_weight : T → Nat)
    (nodes : List T) (ic : Option Nat) (r : ConsistentHashing T)
    (h : ConsistentHashing.new digest to_string get_weight nodes ic = some r) :
    List.Sorted (· ≤ ·) r.sorted_keys ∧
    ∀ k ∈ r.sorted_keys, (List.lookup k r.hashing_ring).isSome := by
  have hkeys : r.sorted_keys = [] := by
    cases nodes with
    | nil =>
      obtain ⟨rn, hrn⟩ :=
        new_some digest to_string get_weight [] ic (Or.inl rfl)
      rw [hrn] at h
      injection h with h
      rw [← h]
    | cons head tail =>
      by_cases htw : totalWeightOf get_weight (head :: tail) = 0
      · rw [new_none digest to_string get_weight head tail ic htw] at h
        exact Option.noConfusion h
      · obtain ⟨rn, hrn⟩ :=
          new_some digest to_string get_weight (head :: tail) ic (Or.inr htw)
        rw [hrn] at h
        injection h with h
        rw [← h]
  rw [hkeys]
  exact ⟨List.sorted_nil, by simp⟩

/-- Witness for C6 on a concrete successful construction. -/
theorem claim_C6_invariants_witness :
    List.Sorted (· ≤ ·)
      (⟨[], [("a", NodeInfo.mk "a")], [], 40, 1⟩ : ConsistentHashing NodeInfo).sorted_keys ∧
    ∀ k ∈ (⟨[], [("a", NodeInfo.mk "a")], [], 40, 1⟩ : ConsistentHashing NodeInfo).sorted_keys,
      (List.lookup k (⟨[], [("a", NodeInfo.mk "a")], [], 40, 1⟩ :
        ConsistentHashing NodeInfo).hashing_ring).isSome :=
  claim_C6_invariants NodeInfo zeroDigest NodeInfo.to_string NodeInfo.get_weight
    [NodeInfo.mk "a"] none ⟨[], [("a", NodeInfo.mk "a")], [], 40, 1⟩ rfl

/-- C7 counterexample: the claim says construction never faults even when
the total weight is zero, but a nonempty node list of total weight zero
reaches the `usize` division `(interleave_count * nodes_num * 0) / 0`,
which panics. -/
theorem claim_C7_counterexample :
    ConsistentHashing.new zeroDigest NodeInfoWithWeigth.to_string
      NodeInfoWithWeigth.get_weight [⟨"a", 0⟩] (some 40) = none :=
  rfl

/-- C7 as amended: construction is panic-free for an empty node list and for
every node list of positive total weight (a zero-weight node then simply
contributes zero placements); only a nonempty list whose total weight is
zero faults, with a division by zero. -/
theorem claim_C7_total_unless_zero_weight (T : Type) (digest : String → List Nat)
    (to_string : T → String) (get_weight : T → Nat)
    (nodes : List T) (ic : Option Nat)
    (h : nodes = [] ∨ 0 < totalWeightOf get_weight nodes) :
    ∃ r, ConsistentHashing.new digest to_string get_weight nodes ic = some r := by
  obtain ⟨rn, hrn⟩ := new_some digest to_string get_weight nodes ic (by
    rcases h with h | h
    · exact Or.inl h
    · exact Or.inr (by omega))
  exact ⟨_, hrn⟩

/-- Witness for the amended C7 on the empty node list. -/
theorem claim_C7_total_unless_zero_weight_witness :
    ∃ r, ConsistentHashing.new zeroDigest NodeInfo.to_string NodeInfo.get_weight
      [] none = some r :=
  claim_C7_total_unless_zero_weight NodeInfo zeroDigest NodeInfo.to_string
    NodeInfo.get_weight [] none (Or.inl rfl)

/-- C8: lookup is deterministic — two results of `get_node` on the same ring
and key coincide. -/
theorem claim_C8_deterministic (T : Type) (digest : String → List Nat)
    (r : ConsistentHashing T) (string_key : String) (o1 o2 : Option (Option T))
    (h1 : get_node digest r string_key = o1)
    (h2 : get_node digest r string_key = o2) : o1 = o2 := by
  rw [← h1, ← h2]

/-- Witness for C8 on a concrete ring and key. -/
theorem claim_C8_deterministic_witness :
    (some (none : Option NodeInfo)) = some (none : Option NodeInfo) :=
  claim_C8_deterministic NodeInfo zeroDigest ⟨[], [], [], 40, 0⟩ "k"
    (some none) (some none) rfl rfl

/-- C10: with default bounds, `bisect_right` terminates without any
out-of-bounds access (the result is `some`, never the `none` that models an
indexing panic) and returns an index in `[0, length]`.  Termination itself
is inherent in `bisect_loop` being a total Lean function. -/
theorem claim_C10_safe (α : Type) [LinearOrder α]
    (sorted_key : List α) (search_key : α) :
    ∃ i, bisect_right sorted_key search_key none none = some i ∧
      i ≤ sorted_key.length :=
  bisect_right_total sorted_key search_key

/-- Witness for C10 on a concrete (unsorted) vector. -/
theorem claim_C10_safe_witness :
    ∃ i, bisect_right [3, 1, 2] (5 : Nat) none none = some i ∧
      i ≤ [3, 1, 2].length :=
  claim_C10_safe Nat [3, 1, 2] 5

/-- C3: on a well-formed ring with a nonempty coordinate sequence (every
listed coordinate owned in the coordinate→node map, as construction
guarantees), lookup always returns a node: it bisects for the key's
coordinate, wraps to index 0 when the position equals the sequence length,
and returns the owner of the coordinate at the resulting index — never the
ordinary `None` and never a panic. -/
theorem claim_C3_nonempty_lookup (T : Type) (digest : String → List Nat)
    (r : ConsistentHashing T) (string_key : String)
    (hdig : (digest string_key).length = 16)
    (hne : r.sorted_keys ≠ [])
    (hwf : ∀ k ∈ r.sorted_keys, (List.lookup k r.hashing_ring).isSome) :
    ∃ key pos coord node,
      gen_key digest string_key = some key ∧
      bisect_right r.sorted_keys key none none = some pos ∧
      pos ≤ r.sorted_keys.length ∧
      r.sorted_keys.get? (if pos = r.sorted_keys.length then 0 else pos) = some coord ∧
      List.lookup coord r.hashing_ring = some node ∧
      get_node digest r string_key = some (some node) := by
  obtain ⟨key, hkey⟩ := gen_key_some digest string_key (by omega)
  obtain ⟨pos, hpos, hposle⟩ := bisect_right_total r.sorted_keys key
  have hlen : 0 < r.sorted_keys.length := List.length_pos.mpr hne
  have hidxlt : (if pos = r.sorted_keys.length then 0 else pos) < r.sorted_keys.length := by
    by_cases hp : pos = r.sorted_keys.length
    · rw [if_pos hp]
      omega
    · rw [if_neg hp]
      omega
  have hget : r.sorted_keys.get? (if pos = r.sorted_keys.length then 0 else pos) =
      some (r.sorted_keys.get ⟨if pos = r.sorted_keys.length then 0 else pos, hidxlt⟩) :=
    List.get?_eq_get hidxlt
  have hmem : r.sorted_keys.get
      ⟨if pos = r.sorted_keys.length then 0 else pos, hidxlt⟩ ∈ r.sorted_keys :=
    List.get_mem _ _ _
  obtain ⟨node, hnode⟩ := Option.isSome_iff_exists.mp (hwf _ hmem)
  have hcond : ¬ r.hashing_ring.length ≤ 0 := by
    intro hle
    have hnil : r.hashing_ring = [] := List.length_eq_zero.mp (Nat.le_zero.mp hle)
    rw [hnil] at hnode
    simp [List.lookup] at hnode
  refine ⟨key, pos, _, node, hkey, hpos, hposle, hget, hnode, ?_⟩
  simp only [get_node, get_node_pos_eq digest r string_key key pos hcond hkey hpos,
    hget, hnode]

/-- Witness for C3 on a concrete one-placement ring. -/
theorem claim_C3_nonempty_lookup_witness :
    ∃ key pos coord node,
      gen_key zeroDigest "k" = some key ∧
      bisect_right ([5] : List Nat) key none none = some pos ∧
      pos ≤ ([5] : List Nat).length ∧
      ([5] : List Nat).get? (if pos = ([5] : List Nat).length then 0 else pos) = some coord ∧
      List.lookup coord [(5, NodeInfo.mk "a")] = some node ∧
      get_node zeroDigest
        (⟨[(5, NodeInfo.mk "a")], [], [5], 40, 0⟩ : ConsistentHashing NodeInfo) "k" =
        some (some node) :=
  claim_C3_nonempty_lookup NodeInfo zeroDigest
    ⟨[(5, NodeInfo.mk "a")], [], [5], 40, 0⟩ "k" rfl (by decide) (by decide)

/-- C5: on every ascending sequence, `bisect_right` with default bounds
returns the unique (hence smallest) index splitting the elements `≤ x` from
the elements `> x`; it returns the length when `x` is at least every
element; and the two spec examples hold. -/
theorem claim_C5_bisect_contract :
    (∀ (α : Type) [LinearOrder α] (S : List α) (x : α), S.Pairwise (· ≤ ·) →
      ∃ i, bisect_right S x none none = some i ∧ i ≤ S.length ∧
        (∀ j (h : j < S.length), j < i → S.get ⟨j, h⟩ ≤ x) ∧
        (∀ j (h : j < S.length), i ≤ j → x < S.get ⟨j, h⟩) ∧
        (∀ i2, i2 ≤ S.length →
          (∀ j (h : j < S.length), j < i2 → S.get ⟨j, h⟩ ≤ x) →
          (∀ j (h : j < S.length), i2 ≤ j → x < S.get ⟨j, h⟩) → i2 = i) ∧
        ((∀ j (h : j < S.length), S.get ⟨j, h⟩ ≤ x) → i = S.length)) ∧
    bisect_right [1, 2, 3, 4, 5] (6 : Nat) none none = some 5 ∧
    bisect_right [1, 2, 3, 4, 5] (3 : Nat) none none = some 3 := by
  refine ⟨?_, by simp +decide [bisect_right, bisect_loop],
    by simp +decide [bisect_right, bisect_loop]⟩
  intro α _inst S x hsorted
  obtain ⟨i, h1, h2, h3, h4⟩ := bisect_right_sorted_spec S x hsorted
  refine ⟨i, h1, h2, h3, h4, ?_, ?_⟩
  · intro i2 hle hlow hhigh
    rcases Nat.lt_trichotomy i2 i with hlt | heq | hgt
    · have hi2len : i2 < S.length := by omega
      exact absurd (h3 i2 hi2len hlt) (not_le.mpr (hhigh i2 hi2len (le_refl i2)))
    · exact heq
    · have hilen : i < S.length := by omega
      exact absurd (hlow i hilen hgt) (not_le.mpr (h4 i hilen (le_refl i)))
  · intro hall
    by_contra hne2
    have hilt : i < S.length := by omega
    exact absurd (hall i hilt) (not_le.mpr (h4 i hilt (le_refl i)))

/-- Witness for C5's universally quantified part on a concrete sorted
sequence. -/
theorem claim_C5_bisect_contract_witness :
    ∃ i, bisect_right ([1, 2, 3] : List Nat) 2 none none = some i ∧
      i ≤ ([1, 2, 3] : List Nat).length ∧
      (∀ j (h : j < ([1, 2, 3] : List Nat).length), j < i →
        ([1, 2, 3] : List Nat).get ⟨j, h⟩ ≤ 2) ∧
      (∀ j (h : j < ([1, 2, 3] : List Nat).length), i ≤ j →
        2 < ([1, 2, 3] : List Nat).get ⟨j, h⟩) ∧
      (∀ i2, i2 ≤ ([1, 2, 3] : List Nat).length →
        (∀ j (h : j < ([1, 2, 3] : List Nat).length), j < i2 →
          ([1, 2, 3] : List Nat).get ⟨j, h⟩ ≤ 2) →
        (∀ j (h : j < ([1, 2, 3] : List Nat).length), i2 ≤ j →
          2 < ([1, 2, 3] : List Nat).get ⟨j, h⟩) → i2 = i) ∧
      ((∀ j (h : j < ([1, 2, 3] : List Nat).length),
        ([1, 2, 3] : List Nat).get ⟨j, h⟩ ≤ 2) → i = ([1, 2, 3] : List Nat).length) :=
  claim_C5_bisect_contract.1 Nat [1, 2, 3] 2 (by decide)

/-- C9: the fold function builds the 32-bit value
`bytes[sel 3]<<24 | bytes[sel 2]<<16 | bytes[sel 1]<<8 | bytes[sel 0]` for
any 16-byte digest and in-range selector; key lookup (`gen_key`) uses the
identity selector; and ring construction's per-seed step uses the
interleaved selectors `fun x => x + k*4` for `k ∈ {0,1,2}` on one digest,
deriving three coordinates from it. -/
theorem claim_C9_fold_selectors :
    (∀ (b : List Nat) (sel : Nat → Nat), b.length = 16 →
      sel 0 < 16 → sel 1 < 16 → sel 2 < 16 → sel 3 < 16 →
      ∃ b0 b1 b2 b3,
        b.get? (sel 0) = some b0 ∧ b.get? (sel 1) = some b1 ∧
        b.get? (sel 2) = some b2 ∧ b.get? (sel 3) = some b3 ∧
        hash_val b sel = some ((b3 <<< 24) ||| (b2 <<< 16) ||| (b1 <<< 8) ||| b0)) ∧
    (∀ (digest : String → List Nat) (s : String),
      gen_key digest s = hash_val (digest s) (fun x => x)) ∧
    (∀ (T : Type) (node_entity : T) (b_key : List Nat) (st : ConsistentHashing T),
      b_key.length = 16 →
      ∃ v0 v1 v2,
        hash_val b_key (fun x => x + 0 * 4) = some v0 ∧
        hash_val b_key (fun x => x + 1 * 4) = some v1 ∧
        hash_val b_key (fun x => x + 2 * 4) = some v2 ∧
        insert_seed_keys node_entity b_key st = some
          { st with
            hashing_ring :=
              (v2, node_entity) :: (v1, node_entity) :: (v0, node_entity) :: st.hashing_ring,
            sorted_keys := st.sorted_keys ++ [v0, v1, v2] }) := by
  refine ⟨?_, fun digest s => rfl, ?_⟩
  · intro b sel hb h0 h1 h2 h3
    have g0 : b.get? (sel 0) = some (b.get ⟨sel 0, by omega⟩) := List.get?_eq_get (by omega)
    have g1 : b.get? (sel 1) = some (b.get ⟨sel 1, by omega⟩) := List.get?_eq_get (by omega)
    have g2 : b.get? (sel 2) = some (b.get ⟨sel 2, by omega⟩) := List.get?_eq_get (by omega)
    have g3 : b.get? (sel 3) = some (b.get ⟨sel 3, by omega⟩) := List.get?_eq_get (by omega)
    exact ⟨_, _, _, _, g0, g1, g2, g3, by simp only [hash_val, g0, g1, g2, g3]⟩
  · intro T node_entity b_key st hb
    obtain ⟨k0, hk0⟩ : ∃ v, b_key[0]? = some v := ⟨_, List.getElem?_eq_getElem (by omega)⟩
    obtain ⟨k1, hk1⟩ : ∃ v, b_key[1]? = some v := ⟨_, List.getElem?_eq_getElem (by omega)⟩
    obtain ⟨k2, hk2⟩ : ∃ v, b_key[2]? = some v := ⟨_, List.getElem?_eq_getElem (by omega)⟩
    obtain ⟨k3, hk3⟩ : ∃ v, b_key[3]? = some v := ⟨_, List.getElem?_eq_getElem (by omega)⟩
    obtain ⟨k4, hk4⟩ : ∃ v, b_key[4]? = some v := ⟨_, List.getElem?_eq_getElem (by omega)⟩
    obtain ⟨k5, hk5⟩ : ∃ v, b_key[5]? = some v := ⟨_, List.getElem?_eq_getElem (by omega)⟩
    obtain ⟨k6, hk6⟩ : ∃ v, b_key[6]? = some v := ⟨_, List.getElem?_eq_getElem (by omega)⟩
    obtain ⟨k7, hk7⟩ : ∃ v, b_key[7]? = some v := ⟨_, List.getElem?_eq_getElem (by omega)⟩
    obtain ⟨k8, hk8⟩ : ∃ v, b_key[8]? = some v := ⟨_, List.getElem?_eq_getElem (by omega)⟩
    obtain ⟨k9, hk9⟩ : ∃ v, b_key[9]? = some v := ⟨_, List.getElem?_eq_getElem (by omega)⟩
    obtain ⟨k10, hk10⟩ : ∃ v, b_key[10]? = some v := ⟨_, List.getElem?_eq_getElem (by omega)⟩
    obtain ⟨k11, hk11⟩ : ∃ v, b_key[11]? = some v := ⟨_, List.getElem?_eq_getElem (by omega)⟩
    have hv0 : hash_val b_key (fun x => x + 0 * 4) =
        some ((k3 <<< 24) ||| (k2 <<< 16) ||| (k1 <<< 8) ||| k0) := by
      simp [hash_val, hk0, hk1, hk2, hk3]
    have hv1 : hash_val b_key (fun x => x + 1 * 4) =
        some ((k7 <<< 24) ||| (k6 <<< 16) ||| (k5 <<< 8) ||| k4) := by
      simp [hash_val, hk4, hk5, hk6, hk7]
    have hv2 : hash_val b_key (fun x => x + 2 * 4) =
        some ((k11 <<< 24) ||| (k10 <<< 16) ||| (k9 <<< 8) ||| k8) := by
      simp [hash_val, hk8, hk9, hk10, hk11]
    refine ⟨_, _, _, hv0, hv1, hv2, ?_⟩
    have hrange : List.range 3 = [0, 1, 2] := rfl
    simp only [insert_seed_keys, hrange, List.foldlM_cons, List.foldlM_nil, hv0, hv1, hv2]
    simp [List.append_assoc]

/-- Witness for C9's first conjunct at a concrete digest and the identity
selector. -/
theorem claim_C9_fold_selectors_witness :
    ∃ b0 b1 b2 b3,
      (List.range 16).get? 0 = some b0 ∧ (List.range 16).get? 1 = some b1 ∧
      (List.range 16).get? 2 = some b2 ∧ (List.range 16).get? 3 = some b3 ∧
      hash_val (List.range 16) (fun x => x) =
        some ((b3 <<< 24) ||| (b2 <<< 16) ||| (b1 <<< 8) ||| b0) :=
  claim_C9_fold_selectors.1 (List.range 16) (fun x => x) (by decide)
    (by decide) (by decide) (by decide) (by decide)

end HashingRing
